import Mathlib

/-!
Verification of `PySim/QuantumSystems.py`.

Two embeddings are used:

* numpy arrays that flow through `expand_hilbert_space` and `Hamiltonian.__add__`
  are modelled as `List (List α)` over an arbitrary commutative ring `α`
  (the source uses `complex128`; the intended instantiation is `ℂ`, and
  concrete evaluations are carried out at `α = ℤ`, which is exact for the
  integer-entried inputs involved because every operation used is a ring
  operation);
* the fixed-size subsystem operators (`SNO`, `SCQubit`, `Dissipator`,
  `Interaction`) are modelled as Mathlib matrices `Matrix (Fin d) (Fin d) ℂ`.

Fallible numpy operations (index errors, shape mismatches in `np.dot`) are
modelled with `Option`; `none` corresponds to a raised exception.
-/

namespace PySim

/-- A numpy 2-D array: a list of rows. -/
abbrev Mat (α : Type) := List (List α)

/-- Number of rows (`arr.shape[0]`). -/
def Mat.rows {α : Type} (A : Mat α) : ℕ := A.length

/-- Number of columns (`arr.shape[1]`), read off the first row. -/
def Mat.cols {α : Type} (A : Mat α) : ℕ := (A.headD []).length

/-- Entry access `arr[i, j]` (with a default of `0` out of range; used only
    in-range in the theorems below). -/
def Mat.entry {α : Type} [Zero α] (A : Mat α) (i j : ℕ) : α :=
  (A.getD i []).getD j 0

/-- The identity array `np.eye(n)`. -/
def eye (α : Type) [Zero α] [One α] (n : ℕ) : Mat α :=
  (List.range n).map fun i => (List.range n).map fun j => if i = j then 1 else 0

/-- The Kronecker product `np.kron(A, B)`: row `(i1, i2)` of the result is the
    concatenation over `j1` of `A[i1, j1] * B[i2, ·]`. -/
def kron {α : Type} [Mul α] (A B : Mat α) : Mat α :=
  A.flatMap fun ra => B.map fun rb => ra.flatMap fun x => rb.map fun y => x * y

/-- The transpose `arr.transpose()`. -/
def Mat.transpose {α : Type} [Zero α] (A : Mat α) : Mat α :=
  (List.range (Mat.cols A)).map fun j => A.map fun r => r.getD j 0

/-- Dot product of two rows. -/
def dotList {α : Type} [Zero α] [Add α] [Mul α] (u v : List α) : α :=
  (List.zipWith (· * ·) u v).foldl (· + ·) 0

/-- Matrix product (assuming matching shapes). -/
def matmul {α : Type} [Zero α] [Add α] [Mul α] (A B : Mat α) : Mat α :=
  let Bt := Mat.transpose B
  A.map fun ra => Bt.map fun cb => dotList ra cb

/-- Matrix product `np.dot(A, B)`, raising (`none`) when the inner
    dimensions disagree. -/
def dot {α : Type} [Zero α] [Add α] [Mul α] (A B : Mat α) : Option (Mat α) :=
  if Mat.cols A = Mat.rows B then some (matmul A B) else none

/-- Integer indexing `xs[i]` with numpy semantics: a negative index `i` with
    `-len ≤ i` wraps around to `len + i`; anything out of range raises
    (`none`). -/
def npGet {β : Type} (xs : List β) (i : Int) : Option β :=
  if 0 ≤ i then xs.get? i.toNat
  else if 0 ≤ i + xs.length then xs.get? (i + xs.length).toNat
  else none

/-- Fancy indexing `xs[idx]` by a list of integer indices (numpy wrap-around
    semantics, `none` on any out-of-range index). -/
def npSelect {β : Type} (xs : List β) (idx : List Int) : Option (List β) :=
  idx.mapM (npGet xs)

/-- Product of a list of naturals, `np.prod` (empty product is `1`). -/
def npProd (xs : List ℕ) : ℕ := xs.foldl (· * ·) 1

/-- The bipartite swap permutation matrix of `calc_perm_mat(dim1, dim2)`:
    `tmpP[ct1*dim2+ct2, ct2*dim1+ct1] = 1` for `ct1 < dim1`, `ct2 < dim2`,
    all other entries `0`.  Row `i < dim1*dim2` decomposes uniquely as
    `i = ct1*dim2 + ct2`, so the unique `1` in row `i` sits in column
    `(i % dim2)*dim1 + i / dim2`. -/
def calc_perm_mat (α : Type) [Zero α] [One α] (dim1 dim2 : ℕ) : Mat α :=
  (List.range (dim1 * dim2)).map fun i => (List.range (dim1 * dim2)).map fun j =>
    if j = (i % dim2) * dim1 + i / dim2 then 1 else 0

/-- One iteration of the `while ct < curIndices[ct]` body of
    `expand_hilbert_space`:

    * `curInd = np.nonzero(curIndices == ct)[0][0]` (raises on no match);
    * `tmpP = calc_perm_mat(dimensions[curInd], dimensions[curInd-1])`
      (note: `dimensions` indexed by *position*, with numpy wrap-around for
      `curInd = 0`);
    * `preDim = np.prod(dimensions[curIndices[:curInd-1]]) if curInd > 1 else 1`;
    * `postDim = np.prod(dimensions[curIndices[curInd+1:]])
       if curInd < dimensions.size - 1 else 1`;
    * `totP = np.dot(np.kron(np.kron(np.eye(preDim), tmpP), np.eye(postDim)), totP)`;
    * `curIndices[[curInd-1, curInd]] = curIndices[[curInd, curInd-1]]`
      (positions with numpy wrap-around). -/
def swapStep {α : Type} [CommRing α] (dimensions : List ℕ) (ct : ℕ)
    (cur : List Int) (totP : Mat α) : Option (List Int × Mat α) := do
  let curInd ← cur.findIdx? (fun v => v == (ct : Int))
  let d1 ← npGet dimensions (curInd : Int)
  let d2 ← npGet dimensions ((curInd : Int) - 1)
  let tmpP := calc_perm_mat α d1 d2
  let preDim ← if 1 < curInd then (npSelect dimensions (cur.take (curInd - 1))).map npProd
    else some 1
  let postDim ← if (curInd : Int) < (dimensions.length : Int) - 1 then
      (npSelect dimensions (cur.drop (curInd + 1))).map npProd
    else some 1
  let totP' ← dot (kron (kron (eye α preDim) tmpP) (eye α postDim)) totP
  let p1 : ℕ := if curInd = 0 then cur.length - 1 else curInd - 1
  let v1 ← cur.get? p1
  let v2 ← cur.get? curInd
  some ((cur.set p1 v2).set curInd v1, totP')

/-- The `while ct < curIndices[ct]` loop of `expand_hilbert_space`, with fuel
    (the source loop terminates quickly on the inputs considered here; `none`
    on fuel exhaustion models non-termination and is never reached in the
    theorems below). -/
def whileLoop {α : Type} [CommRing α] (dimensions : List ℕ) (ct : ℕ) :
    ℕ → List Int → Mat α → Option (List Int × Mat α)
  | 0, _, _ => none
  | fuel + 1, cur, totP =>
    match npGet cur (ct : Int) with
    | none => none
    | some v =>
      if (ct : Int) < v then
        match swapStep dimensions ct cur totP with
        | none => none
        | some (cur', totP') => whileLoop dimensions ct fuel cur' totP'
      else some (cur, totP)

/-- The `for ct in range(curIndices.size)` loop of `expand_hilbert_space`. -/
def forLoop {α : Type} [CommRing α] (dimensions : List ℕ) :
    List ℕ → List Int → Mat α → Option (List Int × Mat α)
  | [], cur, totP => some (cur, totP)
  | ct :: rest, cur, totP => do
    let (cur', totP') ← whileLoop dimensions ct ((cur.length + 1) * (cur.length + 1)) cur totP
    forLoop dimensions rest cur' totP'

/-- Shallow embedding of `expand_hilbert_space(operator, operatorSubSystems,
    eyeSubSystems, dimensions)` from `PySim/QuantumSystems.py` (lines
    216-274):

    * `dimEye = np.prod(dimensions[eyeSubSystems])` when `eyeSubSystems` is
      nonempty, else `1`;
    * `tmpMat = np.kron(operator, np.eye(dimEye))`;
    * `curIndices = np.hstack((operatorSubSystems, eyeSubSystems))`;
    * `totP = np.eye(tmpMat.shape[0])`;
    * bubble-sort loop as above;
    * returns `np.dot(np.dot(totP, tmpMat), totP.transpose())`. -/
def expand_hilbert_space {α : Type} [CommRing α] (operator : Mat α)
    (operatorSubSystems eyeSubSystems : List Int) (dimensions : List ℕ) :
    Option (Mat α) := do
  let dimEye ← if 0 < eyeSubSystems.length then (npSelect dimensions eyeSubSystems).map npProd
    else some 1
  let tmpMat := kron operator (eye α dimEye)
  let curIndices := operatorSubSystems ++ eyeSubSystems
  let totP := eye α (Mat.rows tmpMat)
  let (_, P) ← forLoop dimensions (List.range curIndices.length) curIndices totP
  let tmp ← dot P tmpMat
  dot tmp (Mat.transpose P)

/-- Result dimension of numpy broadcasting along one axis: equal extents, or
    one of them is `1`; otherwise the addition raises (`none`). -/
def broadcastDim (a b : ℕ) : Option ℕ :=
  if a = b then some a else if a = 1 then some b else if b = 1 then some a else none

/-- Elementwise addition `A + B` of two 2-D numpy arrays, with numpy
    broadcasting: each axis must be broadcast-compatible, and an axis of
    extent `1` is repeated.  `none` models the `ValueError` numpy raises on
    incompatible shapes. -/
def npAdd {α : Type} [CommRing α] (A B : Mat α) : Option (Mat α) :=
  match broadcastDim (Mat.rows A) (Mat.rows B), broadcastDim (Mat.cols A) (Mat.cols B) with
  | some r, some c =>
    some ((List.range r).map fun i => (List.range c).map fun j =>
      Mat.entry A (if Mat.rows A = 1 then 0 else i) (if Mat.cols A = 1 then 0 else j)
        + Mat.entry B (if Mat.rows B = 1 then 0 else i) (if Mat.cols B = 1 then 0 else j))
  | _, _ => none

/-- In-place elementwise addition `A += B` of two 2-D numpy arrays: the output
    array is `A` itself, so `B` must broadcast *to `A`'s shape* — on each axis
    `B`'s extent must equal `A`'s or be `1`.  Unlike the out-of-place `+`, an
    axis of `A` of extent `1` is never expanded; numpy raises a
    non-broadcastable-output-operand `ValueError` (`none`) instead. -/
def npAddInPlace {α : Type} [CommRing α] (A B : Mat α) : Option (Mat α) :=
  if (Mat.rows B = Mat.rows A ∨ Mat.rows B = 1)
     ∧ (Mat.cols B = Mat.cols A ∨ Mat.cols B = 1) then
    some ((List.range (Mat.rows A)).map fun i => (List.range (Mat.cols A)).map fun j =>
      Mat.entry A i j
        + Mat.entry B (if Mat.rows B = 1 then 0 else i) (if Mat.cols B = 1 then 0 else j))
  else none

/-- Shallow embedding of `Hamiltonian.__add__` on the matrix path
    (`self.matrix + other.matrix`, also `self.matrix + other` when `other` is
    a raw array): out-of-place numpy elementwise addition with broadcasting. -/
def Hamiltonian.add {α : Type} [CommRing α] (A B : Mat α) : Option (Mat α) := npAdd A B

/-- Shallow embedding of `Hamiltonian.__iadd__` on the matrix path
    (`self.matrix += other.matrix`, also `+= other` for a raw array): numpy
    *in-place* addition, which mutates `self.matrix` and therefore requires
    `other` to broadcast to `self.matrix`'s own shape.  The value returned is
    the new `self.matrix` (the source returns `self`). -/
def Hamiltonian.iadd {α : Type} [CommRing α] (A B : Mat α) : Option (Mat α) :=
  npAddInPlace A B

/-- Shallow embedding of `Hamiltonian.__add__` / `__iadd__` when `other` is a
    scalar (`self.matrix + other` with `other` a Python number): numpy adds the
    scalar to every entry; this never raises. -/
def Hamiltonian.addScalar {α : Type} [CommRing α] (A : Mat α) (c : α) : Mat α :=
  A.map fun r => r.map fun x => x + c

/-- An `n × n` list matrix: `n` rows, each of length `n`. -/
def isSquare {α : Type} (A : Mat α) (n : ℕ) : Prop :=
  A.length = n ∧ ∀ r ∈ A, r.length = n

instance {α : Type} (A : Mat α) (n : ℕ) : Decidable (isSquare A n) :=
  inferInstanceAs (Decidable (A.length = n ∧ ∀ r ∈ A, r.length = n))

/-- Shallow embedding of `SNO.raisingOp` for a system of dimension `d ≥ 1`:
    `np.diag(np.sqrt(np.arange(1, dim, dtype=complex128)), -1)`, i.e. the
    `d × d` matrix with entry `sqrt(k)` at `(k, k-1)` for `k = 1..d-1` (the
    sub-diagonal) and `0` elsewhere. -/
noncomputable def SNO.raisingOp (d : ℕ) : Matrix (Fin d) (Fin d) ℂ :=
  Matrix.of fun i j => if (i : ℕ) = (j : ℕ) + 1 then ((Real.sqrt (i : ℕ) : ℝ) : ℂ) else 0

/-- Shallow embedding of `SNO.loweringOp` for a system of dimension `d ≥ 1`:
    `np.diag(np.sqrt(np.arange(1, dim, dtype=complex128)), 1)`, i.e. the
    `d × d` matrix with entry `sqrt(k)` at `(k-1, k)` for `k = 1..d-1` (the
    super-diagonal) and `0` elsewhere. -/
noncomputable def SNO.loweringOp (d : ℕ) : Matrix (Fin d) (Fin d) ℂ :=
  Matrix.of fun i j => if (j : ℕ) = (i : ℕ) + 1 then ((Real.sqrt (j : ℕ) : ℝ) : ℂ) else 0

/-- Shallow embedding of `SNO.numberOp`:
    `np.diag(np.arange(dim, dtype=complex128))`. -/
def SNO.numberOp (d : ℕ) : Matrix (Fin d) (Fin d) ℂ :=
  Matrix.of fun i j => if i = j then ((i : ℕ) : ℂ) else 0

/-- Shallow embedding of the matrix built by `SNO.Hnat` (the source wraps it
    in a `Hamiltonian` object): starting from `zeros`, the loop sets, for
    `ct = 1 .. dim-1`,

    * `Hnat[1,1] = 1*omega`,
    * `Hnat[2,2] = 2*omega + delta`,
    * `Hnat[ct,ct] = ct*omega + delta*(ct-1)*ct/2.0` for `ct ≥ 3`

    (`(ct-1)*ct` is exact Python integer arithmetic, then divided by `2.0`). -/
noncomputable def SNO.Hnat (d : ℕ) (omega delta : ℝ) : Matrix (Fin d) (Fin d) ℂ :=
  Matrix.of fun i j =>
    if i = j ∧ 1 ≤ (i : ℕ) then
      (if (i : ℕ) = 1 then ((((i : ℕ) : ℝ) * omega : ℝ) : ℂ)
       else if (i : ℕ) = 2 then ((((i : ℕ) : ℝ) * omega + delta : ℝ) : ℂ)
       else ((((i : ℕ) : ℝ) * omega
              + delta * ((((i : ℕ) - 1) * (i : ℕ) : ℕ) : ℝ) / 2 : ℝ) : ℂ))
    else 0

/-- Shallow embedding of `SNO.levelProjector(level)`: `tmpMat[level, level] = 1`
    on a `d × d` zero matrix, with numpy integer-index semantics: an index
    `level` with `-d ≤ level < d` is accepted (a negative one wrapping around
    to `d + level`), anything else raises `IndexError` (`none`). -/
def SNO.levelProjector (d : ℕ) (level : Int) : Option (Matrix (Fin d) (Fin d) ℂ) :=
  if -(d : Int) ≤ level ∧ level < (d : Int) then
    some (Matrix.of fun a b =>
      if (a : ℕ) = (if level < 0 then level + d else level).toNat
         ∧ (b : ℕ) = (if level < 0 then level + d else level).toNat then 1 else 0)
  else none

/-- Shallow embedding of `SCQubit.pauliZ`: zeros, then `tmpMat[0,0] = 1` and
    `tmpMat[1,1] = -1`.  The source asserts `dim > 1`; the theorems below only
    invoke this with `2 ≤ d`. -/
def SCQubit.pauliZ (d : ℕ) : Matrix (Fin d) (Fin d) ℂ :=
  Matrix.of fun i j =>
    if (i : ℕ) = 0 ∧ (j : ℕ) = 0 then 1
    else if (i : ℕ) = 1 ∧ (j : ℕ) = 1 then -1
    else 0

/-- Shallow embedding of `SCQubit.pauliX`: zeros, then `tmpMat[0,1] = 1` and
    `tmpMat[1,0] = 1`.  The source asserts `dim > 1`. -/
def SCQubit.pauliX (d : ℕ) : Matrix (Fin d) (Fin d) ℂ :=
  Matrix.of fun i j =>
    if (i : ℕ) = 0 ∧ (j : ℕ) = 1 then 1
    else if (i : ℕ) = 1 ∧ (j : ℕ) = 0 then 1
    else 0

/-- Shallow embedding of `SCQubit.pauliY`: zeros, then `tmpMat[0,1] = -1j` and
    `tmpMat[1,0] = 1j`.  The source asserts `dim > 1`. -/
def SCQubit.pauliY (d : ℕ) : Matrix (Fin d) (Fin d) ℂ :=
  Matrix.of fun i j =>
    if (i : ℕ) = 0 ∧ (j : ℕ) = 1 then -Complex.I
    else if (i : ℕ) = 1 ∧ (j : ℕ) = 0 then Complex.I
    else 0

/-- The identity embedded on the lowest two levels of a `d`-dimensional space,
    `diag(1, 1, 0, ..., 0)` — the matrix the Pauli algebra claim compares
    against. -/
def qubitEye (d : ℕ) : Matrix (Fin d) (Fin d) ℂ :=
  Matrix.of fun i j => if i = j ∧ (i : ℕ) < 2 then 1 else 0

/-- Shallow embedding of `Dissipator.superOpColStack` for a Lindblad matrix
    `L` (`self.matrix`):

    `np.kron(M.conj(), M) - 0.5*np.kron(eye, np.dot(M.conj().transpose(), M))
     - 0.5*np.kron(np.dot(M.transpose(), M.conj()), eye)`. -/
noncomputable def Dissipator.superOpColStack {d : ℕ} (L : Matrix (Fin d) (Fin d) ℂ) :
    Matrix (Fin d × Fin d) (Fin d × Fin d) ℂ :=
  Matrix.kroneckerMap (· * ·) (L.map (starRingEnd ℂ)) L
    - (0.5 : ℂ) • Matrix.kroneckerMap (· * ·) (1 : Matrix (Fin d) (Fin d) ℂ)
        ((L.map (starRingEnd ℂ)).transpose * L)
    - (0.5 : ℂ) • Matrix.kroneckerMap (· * ·) (L.transpose * L.map (starRingEnd ℂ))
        (1 : Matrix (Fin d) (Fin d) ℂ)

/-- Shallow embedding of `Interaction.createMat`, with the two systems
    represented by their dimensions `d1`, `d2` (ladder and Pauli operators are
    the accessors of `SNO`/`SCQubit` above):

    * `'ZZ'`: `0.25 * strength * np.kron(system1.pauliZ, system2.pauliZ)`
      (the `pauliZ` accessor asserts `dim > 1`, so `none` when either
      dimension is below `2`);
    * `'FlipFlop'`: `strength * (np.kron(lowering1, raising2)
      + np.kron(raising1, lowering2))`;
    * any other type: `raise NameError('Unknown interaction type.')`
      (`none`). -/
noncomputable def Interaction.createMat (interactionType : String) (strength : ℂ) (d1 d2 : ℕ) :
    Option (Matrix (Fin d1 × Fin d2) (Fin d1 × Fin d2) ℂ) :=
  if interactionType = "ZZ" then
    if 1 < d1 ∧ 1 < d2 then
      some ((0.25 * strength) •
        Matrix.kroneckerMap (· * ·) (SCQubit.pauliZ d1) (SCQubit.pauliZ d2))
    else none
  else if interactionType = "FlipFlop" then
    some (strength • (Matrix.kroneckerMap (· * ·) (SNO.loweringOp d1) (SNO.raisingOp d2)
      + Matrix.kroneckerMap (· * ·) (SNO.raisingOp d1) (SNO.loweringOp d2)))
  else none

open Matrix Kronecker

lemma isSquare_cols {α : Type} {A : Mat α} {n : ℕ} (h : isSquare A n) : Mat.cols A = n := by
  rcases A with _ | ⟨r, rest⟩
  · simpa [Mat.cols] using h.1
  · exact h.2 r (by simp)

lemma sum_fin_two_support {d : ℕ} (hd : 2 ≤ d) (g : Fin d → ℂ)
    (h : ∀ m : Fin d, (m : ℕ) ≠ 0 → (m : ℕ) ≠ 1 → g m = 0) :
    ∑ m, g m = g ⟨0, by omega⟩ + g ⟨1, by omega⟩ := by
  have h01 : (⟨0, by omega⟩ : Fin d) ≠ ⟨1, by omega⟩ := by simp [Fin.ext_iff]
  rw [← Finset.sum_pair h01]
  refine (Finset.sum_subset (Finset.subset_univ _) ?_).symm
  intro x _ hx
  simp only [Finset.mem_insert, Finset.mem_singleton, Fin.ext_iff] at hx
  push_neg at hx
  exact h x (by simpa using hx.1) (by simpa using hx.2)

/-- C1: `expand_hilbert_space` is claimed to embed any operator into the
    canonical tensor-product basis for every dimension vector, including
    heterogeneous per-subsystem dimensions.  The code indexes `dimensions` by
    *position* (`dimensions[curInd]`) instead of by the subsystem occupying
    that position when building the swap matrix, so for `dimensions = [2, 3]`,
    `actingIndices = [1]`, `passiveIndices = [0]` and the operator with a
    single `1` at `(0, 1)` it silently returns a matrix with ones at `(0, 4)`
    and `(2, 1)` instead of the canonical embedding `I₂ ⊗ operator` (ones at
    `(0, 1)` and `(3, 4)`). -/
theorem expand_hilbert_space_heterogeneous_bug :
    expand_hilbert_space ([[0,1,0],[0,0,0],[0,0,0]] : Mat ℤ) [1] [0] [2,3]
      = some [[0,0,0,0,1,0],[0,0,0,0,0,0],[0,1,0,0,0,0],
              [0,0,0,0,0,0],[0,0,0,0,0,0],[0,0,0,0,0,0]]
    ∧ expand_hilbert_space ([[0,1,0],[0,0,0],[0,0,0]] : Mat ℤ) [1] [0] [2,3]
      ≠ some (kron (eye ℤ 2) [[0,1,0],[0,0,0],[0,0,0]]) := by
  constructor
  · decide
  · decide

/-- C2 (counterexample): the claim says every call in which `actingIndices`
    and `passiveIndices` fail to partition `{0,...,N-1}` fails and returns no
    matrix.  With `actingIndices = [0]`, `passiveIndices = [0]`,
    `dimensions = [2, 2]` (index `0` repeated, index `1` missing) the call
    returns a matrix. -/
theorem expand_malformed_partition_returns :
    expand_hilbert_space ([[1,2],[3,4]] : Mat ℤ) [0] [0] [2,2] ≠ none := by
  decide

/-- C2 (amended): `expand_hilbert_space` performs no partition validation.
    With the malformed partition `actingIndices = [0]`, `passiveIndices = [0]`,
    `dimensions = [2, 2]` it silently returns `operator ⊗ I₂` instead of
    failing; only out-of-range indexing or intermediate shape mismatches
    raise. -/
theorem expand_no_partition_validation :
    expand_hilbert_space ([[1,2],[3,4]] : Mat ℤ) [0] [0] [2,2]
      = some (kron [[1,2],[3,4]] (eye ℤ 2)) := by
  decide

/-- C3 (counterexample): the claim puts `loweringOp`'s entries on the
    sub-diagonal: at `d = 2` it asserts `loweringOp[1,0] = sqrt 1`.  In the
    code that entry is `0` (the code's `loweringOp` is super-diagonal). -/
theorem loweringOp_subdiagonal_refuted :
    SNO.loweringOp 2 1 0 ≠ ((Real.sqrt 1 : ℝ) : ℂ) := by
  simp [SNO.loweringOp, Matrix.of_apply, Real.sqrt_one]

/-- C3 (amended): the diagonals are the other way round: `raisingOp` carries
    `sqrt(k)` at `(k, k-1)` (sub-diagonal) and `loweringOp` carries `sqrt(k)`
    at `(k-1, k)` (super-diagonal), all other entries of both being zero. -/
theorem ladder_diagonals_amended (d : ℕ) :
    (∀ i j : Fin d, (i : ℕ) = (j : ℕ) + 1 →
      SNO.raisingOp d i j = ((Real.sqrt (i : ℕ) : ℝ) : ℂ))
    ∧ (∀ i j : Fin d, (j : ℕ) = (i : ℕ) + 1 →
      SNO.loweringOp d i j = ((Real.sqrt (j : ℕ) : ℝ) : ℂ))
    ∧ (∀ i j : Fin d, (i : ℕ) ≠ (j : ℕ) + 1 → SNO.raisingOp d i j = 0)
    ∧ (∀ i j : Fin d, (j : ℕ) ≠ (i : ℕ) + 1 → SNO.loweringOp d i j = 0) := by
  refine ⟨fun i j hij => ?_, fun i j hij => ?_, fun i j hij => ?_, fun i j hij => ?_⟩
  · simp only [SNO.raisingOp, Matrix.of_apply, if_pos hij]
  · simp only [SNO.loweringOp, Matrix.of_apply, if_pos hij]
  · simp only [SNO.raisingOp, Matrix.of_apply, if_neg hij]
  · simp only [SNO.loweringOp, Matrix.of_apply, if_neg hij]

theorem ladder_diagonals_amended_witness :
    SNO.raisingOp 2 1 0 = ((Real.sqrt ((1 : Fin 2) : ℕ) : ℝ) : ℂ)
    ∧ SNO.loweringOp 2 0 1 = ((Real.sqrt ((1 : Fin 2) : ℕ) : ℝ) : ℂ) :=
  ⟨(ladder_diagonals_amended 2).1 1 0 (by decide),
   (ladder_diagonals_amended 2).2.1 0 1 (by decide)⟩

/-- C4 (counterexample): the claim says any dimension-mismatched addition
    fails, in particular a `1 × 1` matrix added to a `2 × 2` Hamiltonian.
    numpy broadcasting silently expands the `1 × 1` operand instead. -/
theorem hamiltonian_add_broadcasts :
    Hamiltonian.add ([[1,2],[3,4]] : Mat ℤ) [[10]] = some [[11,12],[13,14]] := by
  decide

/-- C4 (amended): both operators delegate to numpy addition, which broadcasts
    instead of rejecting every mismatch.  Out-of-place `__add__` fails exactly
    for non-broadcast-compatible square shapes (`n ≠ m` with both sides bigger
    than `1`); equal dimensions add elementwise; a `1 × 1` operand (either
    side, like a raw scalar) silently broadcasts.  In-place `__iadd__`
    additionally requires the result to fit `self.matrix`: `n × n += m × m`
    fails exactly unless `m = n` or `m = 1` — so `m × m` and `1 × 1` right
    operands silently broadcast, while a `1 × 1` left side with an
    `m × m, m > 1` right side raises. -/
theorem hamiltonian_add_amended {α : Type} [CommRing α] (A B : Mat α) (n m : ℕ)
    (hA : isSquare A n) (hB : isSquare B m) :
    ((n ≠ m → n ≠ 1 → m ≠ 1 → Hamiltonian.add A B = none)
      ∧ (n = m → Hamiltonian.add A B
          = some ((List.range n).map fun i => (List.range n).map fun j =>
              Mat.entry A i j + Mat.entry B i j))
      ∧ (n = 1 → Hamiltonian.add A B
          = some ((List.range m).map fun i => (List.range m).map fun j =>
              Mat.entry A 0 0 + Mat.entry B i j)))
    ∧ ((n ≠ m → m ≠ 1 → Hamiltonian.iadd A B = none)
      ∧ (n = m → Hamiltonian.iadd A B
          = some ((List.range n).map fun i => (List.range n).map fun j =>
              Mat.entry A i j + Mat.entry B i j))
      ∧ (m = 1 → Hamiltonian.iadd A B
          = some ((List.range n).map fun i => (List.range n).map fun j =>
              Mat.entry A i j + Mat.entry B 0 0))) := by
  have hrA : Mat.rows A = n := hA.1
  have hrB : Mat.rows B = m := hB.1
  have hcA : Mat.cols A = n := isSquare_cols hA
  have hcB : Mat.cols B = m := isSquare_cols hB
  refine ⟨⟨fun hnm hn1 hm1 => ?_, fun hnm => ?_, fun hn1 => ?_⟩,
    fun hnm hm1 => ?_, fun hnm => ?_, fun hm1 => ?_⟩
  · have hb : broadcastDim n m = none := by simp [broadcastDim, hnm, hn1, hm1]
    simp [Hamiltonian.add, npAdd, hrA, hrB, hcA, hcB, hb]
  · subst hnm
    have hb : broadcastDim n n = some n := by simp [broadcastDim]
    simp only [Hamiltonian.add, npAdd, hrA, hrB, hcA, hcB, hb]
    refine congrArg some (List.map_congr_left fun i hi => List.map_congr_left fun j hj => ?_)
    rcases eq_or_ne n 1 with h1 | h1
    · subst h1
      simp only [List.mem_range, Nat.lt_one_iff] at hi hj
      subst hi; subst hj; simp
    · simp [h1]
  · subst hn1
    have hb : broadcastDim 1 m = some m := by
      rcases eq_or_ne m 1 with h | h <;> simp [broadcastDim, h]
    simp only [Hamiltonian.add, npAdd, hrA, hrB, hcA, hcB, hb]
    refine congrArg some (List.map_congr_left fun i hi => List.map_congr_left fun j hj => ?_)
    rcases eq_or_ne m 1 with h1 | h1
    · subst h1
      simp only [List.mem_range, Nat.lt_one_iff] at hi hj
      subst hi; subst hj; simp
    · simp [h1]
  · simp only [Hamiltonian.iadd, npAddInPlace, hrA, hrB, hcA, hcB]
    rw [if_neg (fun hc => hc.1.elim (fun h => hnm h.symm) hm1)]
  · subst hnm
    simp only [Hamiltonian.iadd, npAddInPlace, hrA, hrB, hcA, hcB]
    rw [if_pos (by tauto)]
    refine congrArg some (List.map_congr_left fun i hi => List.map_congr_left fun j hj => ?_)
    rcases eq_or_ne n 1 with h1 | h1
    · subst h1
      simp only [List.mem_range, Nat.lt_one_iff] at hi hj
      subst hi; subst hj; simp
    · simp [h1]
  · subst hm1
    simp only [Hamiltonian.iadd, npAddInPlace, hrA, hrB, hcA, hcB]
    rw [if_pos (by tauto)]
    simp

theorem hamiltonian_add_amended_witness :
    (Hamiltonian.add ([[1,2],[3,4]] : Mat ℤ) [[5,6],[7,8]]
      = some ((List.range 2).map fun i => (List.range 2).map fun j =>
          Mat.entry ([[1,2],[3,4]] : Mat ℤ) i j + Mat.entry ([[5,6],[7,8]] : Mat ℤ) i j))
    ∧ Hamiltonian.iadd ([[9]] : Mat ℤ) [[5,6],[7,8]] = none :=
  ⟨(hamiltonian_add_amended [[1,2],[3,4]] [[5,6],[7,8]] 2 2
      (by decide) (by decide)).1.2.1 rfl,
   (hamiltonian_add_amended ([[9]] : Mat ℤ) [[5,6],[7,8]] 1 2
      (by decide) (by decide)).2.1 (by decide) (by decide)⟩

/-- C5: the natural Hamiltonian of an `SNO` is diagonal with entry `0` at
    level `0`, `k·omega` at level `k = 1`, and `k·omega + delta·(k-1)·k/2` at
    every level `k ≥ 2`, all off-diagonal entries being zero. -/
theorem Hnat_diagonal_entries (d : ℕ) (omega delta : ℝ) (i j : Fin d) :
    SNO.Hnat d omega delta i j =
      if i = j then
        (if (i : ℕ) = 0 then 0
         else if (i : ℕ) = 1 then ((((i : ℕ) : ℝ) * omega : ℝ) : ℂ)
         else ((((i : ℕ) : ℝ) * omega
                + delta * (((i : ℕ) : ℝ) - 1) * ((i : ℕ) : ℝ) / 2 : ℝ) : ℂ))
      else 0 := by
  simp only [SNO.Hnat, Matrix.of_apply]
  by_cases hij : i = j
  · subst hij
    rw [if_pos rfl]
    by_cases h0 : (i : ℕ) = 0
    · rw [if_neg (fun hc => absurd hc.2 (by omega)), if_pos h0]
    · have h1 : 1 ≤ (i : ℕ) := by omega
      rw [if_pos ⟨rfl, h1⟩, if_neg h0]
      by_cases he1 : (i : ℕ) = 1
      · rw [if_pos he1, if_pos he1]
      · rw [if_neg he1, if_neg he1]
        by_cases he2 : (i : ℕ) = 2
        · rw [if_pos he2, Complex.ofReal_inj, he2]
          norm_num
        · rw [if_neg he2, Complex.ofReal_inj]
          have hsub : ((((i : ℕ) - 1) * (i : ℕ) : ℕ) : ℝ)
              = (((i : ℕ) : ℝ) - 1) * ((i : ℕ) : ℝ) := by
            push_cast [Nat.cast_sub h1]
            ring
          rw [hsub]
          ring
  · rw [if_neg (fun hc => hij hc.1), if_neg hij]

/-- C6: `Interaction.createMat` produces `0.25 · strength · (Z ⊗ Z)` for kind
    `'ZZ'`, `strength · (lowering ⊗ raising + raising ⊗ lowering)` for kind
    `'FlipFlop'`, and fails with an unknown-interaction-type error for any
    other kind. -/
theorem createMat_cases (t : String) (s : ℂ) (d1 d2 : ℕ) :
    (t = "ZZ" → 1 < d1 → 1 < d2 →
      Interaction.createMat t s d1 d2
        = some ((0.25 * s) • (SCQubit.pauliZ d1 ⊗ₖ SCQubit.pauliZ d2)))
    ∧ (t = "FlipFlop" →
      Interaction.createMat t s d1 d2
        = some (s • (SNO.loweringOp d1 ⊗ₖ SNO.raisingOp d2
            + SNO.raisingOp d1 ⊗ₖ SNO.loweringOp d2)))
    ∧ (t ≠ "ZZ" → t ≠ "FlipFlop" → Interaction.createMat t s d1 d2 = none) := by
  refine ⟨fun ht h1 h2 => ?_, fun ht => ?_, fun h1 h2 => ?_⟩
  · subst ht
    simp [Interaction.createMat, h1, h2, Matrix.kroneckerMap]
  · subst ht
    simp [Interaction.createMat, Matrix.kroneckerMap]
  · simp [Interaction.createMat, h1, h2]

theorem createMat_cases_witness :
    Interaction.createMat "ZZ" 1 2 2
      = some (((0.25 : ℂ) * 1) • (SCQubit.pauliZ 2 ⊗ₖ SCQubit.pauliZ 2))
    ∧ Interaction.createMat "XX" 1 2 2 = none :=
  ⟨(createMat_cases "ZZ" 1 2 2).1 rfl (by omega) (by omega),
   (createMat_cases "XX" 1 2 2).2.2 (by decide) (by decide)⟩

/-- C7: the dissipator superoperator of a Lindblad matrix `L` is exactly
    `(conj L ⊗ L) − 0.5·(I ⊗ L†L) − 0.5·((Lᵗ · conj L) ⊗ I)` in column-stacked
    form. -/
theorem superOpColStack_formula {d : ℕ} (L : Matrix (Fin d) (Fin d) ℂ) :
    Dissipator.superOpColStack L =
      (L.map (starRingEnd ℂ)) ⊗ₖ L
        - (0.5 : ℂ) • ((1 : Matrix (Fin d) (Fin d) ℂ) ⊗ₖ (Lᴴ * L))
        - (0.5 : ℂ) • ((Lᵀ * L.map (starRingEnd ℂ)) ⊗ₖ (1 : Matrix (Fin d) (Fin d) ℂ)) := by
  have h1 : (L.map (starRingEnd ℂ)).transpose = Lᴴ := by
    ext i j
    simp [Matrix.conjTranspose_apply, Matrix.transpose_apply, Matrix.map_apply]
  rw [Dissipator.superOpColStack, h1]

/-- C8: for every dimension `d`, the raising operator is the conjugate
    transpose of the lowering operator, and `raisingOp · loweringOp` equals
    the number operator `diag(0, 1, ..., d-1)` exactly. -/
theorem ladder_adjoint_and_number (d : ℕ) :
    SNO.raisingOp d = (SNO.loweringOp d)ᴴ
    ∧ SNO.raisingOp d * SNO.loweringOp d = SNO.numberOp d := by
  constructor
  · ext i j
    simp only [SNO.raisingOp, SNO.loweringOp, Matrix.conjTranspose_apply, Matrix.of_apply]
    split_ifs
    · exact (Complex.conj_ofReal _).symm
    · exact (star_zero _).symm
  · ext i j
    rw [Matrix.mul_apply]
    simp only [SNO.raisingOp, SNO.loweringOp, SNO.numberOp, Matrix.of_apply]
    by_cases hi : (i : ℕ) = 0
    · rw [Finset.sum_eq_zero (fun m _ => by
        rw [if_neg (show ¬(i : ℕ) = (m : ℕ) + 1 by omega)]
        exact zero_mul _)]
      split_ifs with h
      · rw [hi]; exact (Nat.cast_zero).symm
      · rfl
    · have h1 : 1 ≤ (i : ℕ) := by omega
      rw [Finset.sum_eq_single (⟨(i : ℕ) - 1, by omega⟩ : Fin d)]
      · have hv : ((⟨(i : ℕ) - 1, by omega⟩ : Fin d) : ℕ) = (i : ℕ) - 1 := rfl
        rw [hv, if_pos (show (i : ℕ) = (i : ℕ) - 1 + 1 by omega)]
        by_cases hji : (j : ℕ) = (i : ℕ)
        · rw [if_pos (show (j : ℕ) = (i : ℕ) - 1 + 1 by omega),
            if_pos (Fin.ext hji.symm : i = j), hji, ← Complex.ofReal_mul,
            Real.mul_self_sqrt (Nat.cast_nonneg _)]
          exact Complex.ofReal_natCast _
        · rw [if_neg (show ¬(j : ℕ) = (i : ℕ) - 1 + 1 by omega),
            if_neg (show ¬i = j from fun h => hji (by rw [h]))]
          exact mul_zero _
      · intro m _ hm
        have hmv : (m : ℕ) ≠ (i : ℕ) - 1 := fun hc => hm (Fin.ext hc)
        rw [if_neg (show ¬(i : ℕ) = (m : ℕ) + 1 by omega)]
        exact zero_mul _
      · intro h
        exact absurd (Finset.mem_univ _) h

lemma pauli_entry_XX {d : ℕ} (hd : 2 ≤ d) (i j : Fin d) :
    (SCQubit.pauliX d * SCQubit.pauliX d) i j = qubitEye d i j := by
  rw [Matrix.mul_apply]
  rw [sum_fin_two_support hd (fun m => SCQubit.pauliX d i m * SCQubit.pauliX d m j)
    (fun m hm0 hm1 => by simp [SCQubit.pauliX, Matrix.of_apply, hm0, hm1])]
  simp only [SCQubit.pauliX, qubitEye, Matrix.of_apply, Fin.ext_iff]
  by_cases hi0 : (i : ℕ) = 0 <;> by_cases hj0 : (j : ℕ) = 0 <;>
    by_cases hi1 : (i : ℕ) = 1 <;> by_cases hj1 : (j : ℕ) = 1 <;>
    simp_all <;> split_ifs <;> first | rfl | omega

lemma pauli_entry_YY {d : ℕ} (hd : 2 ≤ d) (i j : Fin d) :
    (SCQubit.pauliY d * SCQubit.pauliY d) i j = qubitEye d i j := by
  rw [Matrix.mul_apply]
  rw [sum_fin_two_support hd (fun m => SCQubit.pauliY d i m * SCQubit.pauliY d m j)
    (fun m hm0 hm1 => by simp [SCQubit.pauliY, Matrix.of_apply, hm0, hm1])]
  simp only [SCQubit.pauliY, qubitEye, Matrix.of_apply, Fin.ext_iff]
  by_cases hi0 : (i : ℕ) = 0 <;> by_cases hj0 : (j : ℕ) = 0 <;>
    by_cases hi1 : (i : ℕ) = 1 <;> by_cases hj1 : (j : ℕ) = 1 <;>
    simp_all [Complex.I_mul_I] <;> split_ifs <;> first | rfl | omega

lemma pauli_entry_ZZ {d : ℕ} (hd : 2 ≤ d) (i j : Fin d) :
    (SCQubit.pauliZ d * SCQubit.pauliZ d) i j = qubitEye d i j := by
  rw [Matrix.mul_apply]
  rw [sum_fin_two_support hd (fun m => SCQubit.pauliZ d i m * SCQubit.pauliZ d m j)
    (fun m hm0 hm1 => by simp [SCQubit.pauliZ, Matrix.of_apply, hm0, hm1])]
  simp only [SCQubit.pauliZ, qubitEye, Matrix.of_apply, Fin.ext_iff]
  by_cases hi0 : (i : ℕ) = 0 <;> by_cases hj0 : (j : ℕ) = 0 <;>
    by_cases hi1 : (i : ℕ) = 1 <;> by_cases hj1 : (j : ℕ) = 1 <;>
    simp_all <;> split_ifs <;> first | rfl | omega

lemma pauli_entry_XY {d : ℕ} (hd : 2 ≤ d) (i j : Fin d) :
    (SCQubit.pauliX d * SCQubit.pauliY d) i j = (Complex.I • SCQubit.pauliZ d) i j := by
  rw [Matrix.mul_apply]
  rw [sum_fin_two_support hd (fun m => SCQubit.pauliX d i m * SCQubit.pauliY d m j)
    (fun m hm0 hm1 => by simp [SCQubit.pauliX, SCQubit.pauliY, Matrix.of_apply, hm0, hm1])]
  simp only [SCQubit.pauliX, SCQubit.pauliY, SCQubit.pauliZ, Matrix.smul_apply,
    Matrix.of_apply, Fin.ext_iff, smul_eq_mul]
  by_cases hi0 : (i : ℕ) = 0 <;> by_cases hj0 : (j : ℕ) = 0 <;>
    by_cases hi1 : (i : ℕ) = 1 <;> by_cases hj1 : (j : ℕ) = 1 <;>
    simp_all

/-- C9: for every qubit dimension `d ≥ 2`, the embedded Pauli operators
    satisfy `X·X = Y·Y = Z·Z = diag(1,1,0,...,0)` (the identity embedded on
    the lowest two levels) and `X·Y = i·Z`, exactly. -/
theorem pauli_algebra (d : ℕ) (hd : 2 ≤ d) :
    SCQubit.pauliX d * SCQubit.pauliX d = qubitEye d
    ∧ SCQubit.pauliY d * SCQubit.pauliY d = qubitEye d
    ∧ SCQubit.pauliZ d * SCQubit.pauliZ d = qubitEye d
    ∧ SCQubit.pauliX d * SCQubit.pauliY d = Complex.I • SCQubit.pauliZ d :=
  ⟨Matrix.ext (pauli_entry_XX hd), Matrix.ext (pauli_entry_YY hd),
   Matrix.ext (pauli_entry_ZZ hd), Matrix.ext (pauli_entry_XY hd)⟩

theorem pauli_algebra_witness :
    2 ≤ 2
    ∧ (SCQubit.pauliX 2 * SCQubit.pauliX 2 = qubitEye 2
      ∧ SCQubit.pauliY 2 * SCQubit.pauliY 2 = qubitEye 2
      ∧ SCQubit.pauliZ 2 * SCQubit.pauliZ 2 = qubitEye 2
      ∧ SCQubit.pauliX 2 * SCQubit.pauliY 2 = Complex.I • SCQubit.pauliZ 2) :=
  ⟨by omega, pauli_algebra 2 (by omega)⟩

/-- C10: `levelProjector(level)` raises exactly when `level ≥ d` or
    `level < -d`; a negative `level` with `-d ≤ level ≤ -1` is accepted and
    yields the projector onto level `d + level` (a single `1` at position
    `(d+level, d+level)`) — negative level indices wrap around rather than
    being rejected. -/
theorem levelProjector_domain (d : ℕ) (level : Int) :
    (SNO.levelProjector d level = none ↔ ((d : Int) ≤ level ∨ level < -(d : Int)))
    ∧ (-(d : Int) ≤ level → level < 0 →
        SNO.levelProjector d level
          = some (Matrix.of fun a b : Fin d =>
              if (a : ℕ) = (level + d).toNat ∧ (b : ℕ) = (level + d).toNat
              then (1 : ℂ) else 0)) := by
  constructor
  · unfold SNO.levelProjector
    split_ifs with h
    · simp only [reduceCtorEq, false_iff]
      omega
    · simp only [true_iff]
      omega
  · intro h1 h2
    unfold SNO.levelProjector
    rw [if_pos (by omega : -(d : Int) ≤ level ∧ level < (d : Int))]
    rw [if_pos h2]

theorem levelProjector_domain_witness :
    SNO.levelProjector 3 (-1)
      = some (Matrix.of fun a b : Fin 3 =>
          if (a : ℕ) = ((-1 : Int) + 3).toNat ∧ (b : ℕ) = ((-1 : Int) + 3).toNat
          then (1 : ℂ) else 0) :=
  (levelProjector_domain 3 (-1)).2 (by omega) (by omega)

end PySim
